import Mathlib

/-!
Shallow embedding of the grokjs statistical language model
(`src/counter/counter.js`, `src/ngram/ngram.js`,
`src/language-model/language-model.js`) and proofs about it.

Conventions of the embedding:
* JavaScript numbers are modelled as rationals (`ℚ`) in the counting
  substrate — all counts are produced by integer increments and by
  fine-tuning adjustments with a rational learning rate — and as reals
  (`ℝ`) in the evaluation metrics, where `NaN`-producing divisions are
  modelled by `Option ℝ` (`none` = not a finite number).
* A JavaScript `Map` is modelled as an insertion-ordered association
  list: `set` of a present key updates the entry in place, `set` of an
  absent key appends, `get` returns the entry of the (unique) key.
* Methods that mutate `this` return the updated structure; methods that
  can `throw` return an `Except` (paired with the post-state where the
  untouched-on-throw state matters).
-/

/-! ### Counter (src/counter/counter.js) -/

/-- `class Counter`: `this.counter` is a `Map` from item to count,
modelled as an insertion-ordered association list. -/
structure Counter where
  entries : List (String × ℚ)
deriving Repr, DecidableEq

/-- `new Counter()` with no initial argument: an empty map. -/
def Counter.empty : Counter := ⟨[]⟩

/-- `this.counter.get(item) || 0`: the stored count, or 0 when absent
(a stored 0 is falsy in JS and also yields 0, the same value). -/
def Counter.get (c : Counter) (item : String) : ℚ :=
  match c.entries.find? (fun p => p.1 == item) with
  | some p => p.2
  | none => 0

/-- `Map.set` on the underlying list: replace the value of the (unique)
present key in place, else append a fresh entry. -/
def setEntryList (l : List (String × ℚ)) (item : String) (v : ℚ) :
    List (String × ℚ) :=
  match l with
  | [] => [(item, v)]
  | p :: rest => if p.1 == item then (item, v) :: rest else p :: setEntryList rest item v

/-- `Map.delete` on the underlying list: drop the (unique) entry of the key. -/
def removeEntryList (l : List (String × ℚ)) (item : String) : List (String × ℚ) :=
  match l with
  | [] => []
  | p :: rest => if p.1 == item then rest else p :: removeEntryList rest item

/-- The unchecked body of `Counter.increment`:
`this.counter.set(item, (this.counter.get(item) || 0) + n)`. -/
def Counter.incrementU (c : Counter) (item : String) (n : ℚ) : Counter :=
  ⟨setEntryList c.entries item (c.get item + n)⟩

/-- The unchecked body of `Counter.decrement`: subtract `n` from the
count; keep the entry when the result is `> 0`, else delete it. -/
def Counter.decrementU (c : Counter) (item : String) (n : ℚ) : Counter :=
  let count := c.get item - n
  if 0 < count then ⟨setEntryList c.entries item count⟩
  else ⟨removeEntryList c.entries item⟩

/-- The error kinds raised by `Counter` (`InvalidAmount`). -/
inductive CounterError where
  | invalidAmount
deriving Repr, DecidableEq

deriving instance DecidableEq for Except

/-- `Counter.increment(item, n = 1)`: throws unless `n` is a number `≥ 0`
(non-numbers do not exist in the `ℚ` model), then adds `n` to the count. -/
def Counter.increment (c : Counter) (item : String) (n : ℚ) : Except CounterError Counter :=
  if n < 0 then .error .invalidAmount else .ok (c.incrementU item n)

/-- `Counter.decrement(item, n = 1)`: throws unless `n ≥ 0`; subtracts `n`,
removing the item entirely when the resulting count is `≤ 0`. -/
def Counter.decrement (c : Counter) (item : String) (n : ℚ) : Except CounterError Counter :=
  if n < 0 then .error .invalidAmount else .ok (c.decrementU item n)

/-- `Counter.total()`: `values().reduce((sum, count) => sum + count, 0)`. -/
def Counter.total (c : Counter) : ℚ :=
  (c.entries.map Prod.snd).sum

/-- `new Counter(arrayInitial)`: `for (const item of initial) this.increment(item)`
(the amount is the default 1, which never throws). -/
def Counter.fromList (l : List String) : Counter :=
  l.foldl (fun c item => c.incrementU item 1) Counter.empty

/-- `new Counter(objectInitial)`:
`for (const [item, count] of Object.entries(initial)) this.increment(item, count)`;
a negative count makes `increment` throw. -/
def Counter.fromMapping (ps : List (String × ℚ)) : Except CounterError Counter :=
  ps.foldlM (fun c p => c.increment p.1 p.2) Counter.empty

/-- The comparator `(a, b) => b[1] - a[1]` as an ordering relation:
`a` may come before `b` exactly when the comparator is `≤ 0`, i.e.
`b.count ≤ a.count`. -/
def byCountDesc : (String × ℚ) → (String × ℚ) → Prop := fun a b => b.2 ≤ a.2

instance : DecidableRel byCountDesc := fun a b => inferInstanceAs (Decidable (b.2 ≤ a.2))

instance : IsTotal (String × ℚ) byCountDesc := ⟨fun a b => le_total b.2 a.2⟩

instance : IsTrans (String × ℚ) byCountDesc :=
  ⟨fun _ _ _ hab hbc => le_trans hbc hab⟩

/-- `Counter.mostCommon(n?)`:
`Array.from(this.counter.entries()).sort((a, b) => b[1] - a[1]).slice(0, n)`.
`Array.prototype.sort` is a stable sort (ECMAScript 2019), modelled by a
stable insertion sort under `byCountDesc`; `slice(0, undefined)` copies
the whole array. -/
def Counter.mostCommon (c : Counter) (limit : Option ℕ) : List (String × ℚ) :=
  let sorted := List.insertionSort byCountDesc c.entries
  match limit with
  | none => sorted
  | some k => sorted.take k

/-- `Counter.subtract(other)`: build a fresh counter from this counter's
entries by `increment`, then `decrement` it by each of `other`'s entries
(both of which throw on a negative stored count). -/
def Counter.subtract (c other : Counter) : Except CounterError Counter := do
  let r ← c.entries.foldlM (fun (r : Counter) p => r.increment p.1 p.2) Counter.empty
  other.entries.foldlM (fun (r : Counter) p => r.decrement p.1 p.2) r

/-! ### The simple tokenizer (Ngram.tokenize, src/ngram/ngram.js) -/

/-- The `\s` character class of the tokenizer's regexes, restricted to
the ASCII whitespace characters (the inputs of interest are ASCII). -/
def jsIsSpaceChar (c : Char) : Bool :=
  c == ' ' || c == '\t' || c == '\n' || c == '\r' || c == '\x0b' || c == '\x0c'

/-- The `\w` character class: `[A-Za-z0-9_]`. -/
def jsIsWordChar (c : Char) : Bool :=
  c.isAlphanum || c == '_'

/-- A character survives `replace(/[^\w\s']|_/g, "")` exactly when it is
a word, whitespace or apostrophe character and is not an underscore. -/
def keepChar (c : Char) : Bool :=
  (jsIsWordChar c || jsIsSpaceChar c || c == '\'') && !(c == '_')

/-- `String.prototype.trim`: strip leading and trailing whitespace. -/
def jsTrim (cs : List Char) : List Char :=
  (((cs.dropWhile jsIsSpaceChar).reverse).dropWhile jsIsSpaceChar).reverse

/-- `String.prototype.split(/\s+/)` on the character list: every maximal
whitespace run is a separator; a leading or trailing run contributes an
empty field, and the empty string splits to `[""]`. `acc` is the current
field, accumulated in reverse. The `fuel` argument only makes the
recursion structural (each step consumes at least one character, so
`length + 1` fuel never runs out). -/
def splitWsAux : ℕ → List Char → List Char → List (List Char)
  | 0, _, acc => [acc.reverse]
  | _ + 1, [], acc => [acc.reverse]
  | fuel + 1, c :: rest, acc =>
    if jsIsSpaceChar c then
      acc.reverse :: splitWsAux fuel (rest.dropWhile jsIsSpaceChar) []
    else
      splitWsAux fuel rest (c :: acc)

/-- `text.split(/\s+/)` (after the preceding transformations). -/
def splitWs (cs : List Char) : List (List Char) :=
  splitWsAux (cs.length + 1) cs []

/-- `Ngram.tokenize(text)`:
`text.toLowerCase().trim().replace(/[^\w\s']|_/g, "").split(/\s+/)`,
returning `[]` when the result is `== ''` (the split never yields the
empty array, so the loose equality holds exactly for `[""]`). -/
def tokenize (text : String) : List String :=
  let cs := (jsTrim (text.data.map Char.toLower)).filter keepChar
  let tokens := (splitWs cs).map (fun l => String.mk l)
  if tokens = [""] then [] else tokens

/-! ### N-gram table (src/ngram/ngram.js) -/

/-- One level of the table: a `Map` from joined context key to `Counter`. -/
abbrev Level := List (String × Counter)

/-- `Map.get` on a level. -/
def levelGet? (lvl : Level) (k : String) : Option Counter :=
  (lvl.find? (fun p => p.1 == k)).map Prod.snd

/-- `Map.set` on a level: update the present key in place, else append. -/
def levelSet (lvl : Level) (k : String) (c : Counter) : Level :=
  match lvl with
  | [] => [(k, c)]
  | p :: rest => if p.1 == k then (k, c) :: rest else p :: levelSet rest k c

/-- `class Ngram`: `maxN` and `ngrams`, an array of `maxN` level maps. -/
structure Ngram where
  maxN : ℕ
  ngrams : List Level
deriving Repr, DecidableEq

/-- `new Ngram(maxN = 5)`: `this.maxN = Math.min(maxN, 5)` (only an upper
clamp), and `this.ngrams = new Array(this.maxN).fill(0).map(() => new Map())`.
Arguments are the nonnegative integers for which the array construction
succeeds. -/
def Ngram.new (maxN : ℕ := 5) : Ngram :=
  { maxN := min maxN 5, ngrams := List.replicate (min maxN 5) [] }

/-- `tokens.slice(i, i + n)`. -/
def sliceTk (l : List String) (i n : ℕ) : List String :=
  (l.drop i).take n

/-- `Array.prototype.join(' ')`. -/
def joinSpace : List String → String
  | [] => ""
  | [s] => s
  | s :: rest => s ++ " " ++ joinSpace rest

/-- The body of `updateModel`'s inner loop at gram length `n`, position `i`:
build the joined key and the next word (`tokens[i + n] || ''`), create the
counter if the key is absent, and increment the next word by 1 (which
never throws). -/
def updateLevelStep (tokens : List String) (n : ℕ) (lvl : Level) (i : ℕ) : Level :=
  let key := joinSpace (sliceTk tokens i n)
  let next := tokens.getD (i + n) ""
  let c := (levelGet? lvl key).getD Counter.empty
  levelSet lvl key (c.incrementU next 1)

/-- `updateModel`'s inner loop: `for (let i = 0; i <= tokens.length - n; i++)`
(no iterations when `n > tokens.length`, matching the JS negative bound). -/
def updateLevel (tokens : List String) (n : ℕ) (lvl : Level) : Level :=
  (List.range (tokens.length + 1 - n)).foldl (updateLevelStep tokens n) lvl

/-- `Ngram.updateModel(tokens)`: `for (let n = 1; n <= this.maxN; n++)`
update level `n - 1` in place. (On a table whose `ngrams` array is shorter
than `maxN` the JS code would throw on the missing level; the embedded
`List.set`/`getD` are total, and all theorems below concern well-formed
tables where `ngrams.length = maxN`.) -/
def Ngram.updateModel (g : Ngram) (tokens : List String) : Ngram :=
  { g with
    ngrams := (List.range' 1 g.maxN).foldl
      (fun ls n => ls.set (n - 1) (updateLevel tokens n (ls.getD (n - 1) [])))
      g.ngrams }

/-- `Ngram.learn(text)`: `this.updateModel(this.tokenize(text))`. -/
def Ngram.learn (g : Ngram) (text : String) : Ngram :=
  g.updateModel (tokenize text)

/-- `tokens.slice(-n)`: the last `n` tokens (all of them when `n ≥ length`). -/
def lastN (n : ℕ) (l : List String) : List String :=
  l.drop (l.length - n)

/-- The backoff loop of `predictNextWord`, descending on the gram length:
at loop value `n + 1` look level `n` up at the joined last `n + 1` tokens;
on a hit return `counter.mostCommon()`'s words, on a miss recurse. -/
def Ngram.predictLoop (g : Ngram) (tokens : List String) : ℕ → List String
  | 0 => []
  | n + 1 =>
    match levelGet? (g.ngrams.getD n []) (joinSpace (lastN (n + 1) tokens)) with
    | some ctr => (ctr.mostCommon none).map Prod.fst
    | none => g.predictLoop tokens n

/-- `Ngram.predictNextWord` on an already tokenized sequence: the loop
starts at `Math.min(tokens.length, this.maxN)`. -/
def Ngram.predictNextWordT (g : Ngram) (tokens : List String) : List String :=
  g.predictLoop tokens (min tokens.length g.maxN)

/-- `Ngram.predictNextWord(prefix)`: tokenize, then back off. -/
def Ngram.predictNextWord (g : Ngram) (pre : String) : List String :=
  g.predictNextWordT (tokenize pre)

/-! ### Language model (src/language-model/language-model.js) -/

/-- `class LanguageModel`: an `Ngram`, `this.maxN = ngram?.maxN`, a
vocabulary `Set` (modelled as its insertion-ordered element list) and a
free-form `context` object (modelled as a key/value list). -/
structure LanguageModel where
  ngram : Ngram
  maxN : ℕ
  vocabulary : List String
  context : List (String × String)
deriving Repr, DecidableEq

/-- `new LanguageModel(ngram)` with an explicit table (the branch where
`ngram` is non-null, so `this.maxN = ngram.maxN`). -/
def LanguageModel.new (g : Ngram) : LanguageModel :=
  { ngram := g, maxN := g.maxN, vocabulary := [], context := [] }

/-- `Set.prototype.add`: append the element when it is not yet present. -/
def vocabInsert (v : List String) (s : String) : List String :=
  if s ∈ v then v else v ++ [s]

/-- `LanguageModel.train(text)`: tokenize, `this.ngram.learn(tokens.join(" "))`,
and add every token to the vocabulary. (The `InvalidInput` throw on a
non-string argument is excluded by the type.) -/
def LanguageModel.train (m : LanguageModel) (text : String) : LanguageModel :=
  let tokens := tokenize text
  { m with
    ngram := m.ngram.learn (joinSpace tokens)
    vocabulary := tokens.foldl vocabInsert m.vocabulary }

/-- `LanguageModel.predict(prefix, numPredictions = 1)`:
`this.ngram.predictNextWord(prefix).slice(0, numPredictions)`. -/
def LanguageModel.predict (m : LanguageModel) (pre : String) (numPredictions : ℕ) :
    List String :=
  (m.ngram.predictNextWord pre).take numPredictions

/-- `LanguageModel.getVocabularySize()`. -/
def LanguageModel.getVocabularySize (m : LanguageModel) : ℕ :=
  m.vocabulary.length

/-- `LanguageModel.getProbability(word, context)`:
`this.ngram.ngrams[this.ngram.tokenize(context).length - 1]?.get(context)` —
the level index is the token count of the context minus one (for zero
tokens the JS index is `-1`, which reads `undefined`), and the lookup key
is the RAW context string, not the re-joined token form; returns
`count / total` when a counter with positive total is found, else 0. -/
def LanguageModel.getProbability (m : LanguageModel) (word context : String) : ℚ :=
  let tkLen := (tokenize context).length
  let lvl? : Option Level := if tkLen = 0 then none else m.ngram.ngrams[tkLen - 1]?
  match lvl? with
  | none => 0
  | some lvl =>
    match levelGet? lvl context with
    | none => 0
    | some counter => if 0 < counter.total then counter.get word / counter.total else 0

/-- The `ngram` field of the persisted snapshot. `JSON.stringify` renders
a JavaScript `Map` as the empty object `{}` (a `Map` has no enumerable
own properties), so each level of `this.ngram.ngrams` serializes to an
empty key/value mapping regardless of its contents. -/
structure SavedNgram where
  maxN : ℕ
  ngrams : List (List (String × List (String × ℚ)))
deriving Repr, DecidableEq

/-- The persisted snapshot `{ngram, maxN, vocabulary, context}` written by
`saveModel` and read back by `loadModel` (the filesystem write/read pair
is modelled by passing the snapshot value directly). -/
structure SavedState where
  ngram : SavedNgram
  maxN : ℕ
  vocabulary : List String
  context : List (String × String)
deriving Repr, DecidableEq

/-- `LanguageModel.saveModel(path)`:
`JSON.stringify({ngram: this.ngram, maxN, vocabulary: Array.from(...), context})`.
Each level `Map` inside `this.ngram` stringifies to `{}`, i.e. to the
empty association list. -/
def LanguageModel.saveModel (m : LanguageModel) : SavedState :=
  { ngram := { maxN := m.ngram.maxN, ngrams := m.ngram.ngrams.map (fun _ => []) }
    maxN := m.maxN
    vocabulary := m.vocabulary
    context := m.context }

/-- `loadModel`'s inner loop for one level: for each `[key, value]` of the
saved level, build `new Counter()` and `increment(word, count)` for each
entry (throwing on a negative count), then `set` it into the level. -/
def loadLevel (saved : List (String × List (String × ℚ))) (lvl : Level) :
    Except CounterError Level :=
  saved.foldlM (fun acc kv => do
    let c ← Counter.fromMapping kv.2
    pure (levelSet acc kv.1 c)) lvl

/-- `LanguageModel.loadModel(path)`: replace the table by
`new Ngram(modelState.maxN)`, `maxN`, the vocabulary `Set` rebuilt from
the saved list, and the saved context; then re-fill each level from the
saved raw count mappings. (`m` is the receiver, whose state is wholly
replaced.) -/
def LanguageModel.loadModel (_m : LanguageModel) (s : SavedState) :
    Except CounterError LanguageModel := do
  let fresh := Ngram.new s.maxN
  let loaded ← (s.ngram.ngrams.zip fresh.ngrams).mapM (fun pr => loadLevel pr.1 pr.2)
  pure { ngram := { maxN := fresh.maxN, ngrams := loaded ++ fresh.ngrams.drop s.ngram.ngrams.length }
         maxN := s.maxN
         vocabulary := s.vocabulary.foldl vocabInsert []
         context := s.context }

/-- The error kinds raised by `LanguageModel` that the claims mention. -/
inductive LMError where
  | invalidLearningRate
deriving Repr, DecidableEq

/-- `fineTune`'s inner loop at gram length `n`, position `i`. When the
joined key exists: read the current count of the next word; `decrement`
by the rate when the count exceeds `this.maxN` (the model's, not the gram
length), else `increment` by the rate; then, when the resulting count
fell below `0.1`, bump it back up to exactly `0.1`. When the key does not
exist: create the counter and increment the next word by the rate. All
amounts at these call sites are nonnegative, so the checked
increment/decrement never throw; the unchecked bodies are used. -/
def fineTuneLevel (modelMaxN : ℕ) (rate : ℚ) (tokens : List String) (n : ℕ)
    (lvl : Level) : Level :=
  (List.range (tokens.length + 1 - n)).foldl (fun lvl i =>
    let key := joinSpace (sliceTk tokens i n)
    let next := tokens.getD (i + n) ""
    match levelGet? lvl key with
    | some counter =>
      let currentCount := counter.get next
      let c1 := if (modelMaxN : ℚ) < currentCount
        then counter.decrementU next rate
        else counter.incrementU next rate
      let c2 := if c1.get next < 1 / 10
        then c1.incrementU next (-(c1.get next) + 1 / 10)
        else c1
      levelSet lvl key c2
    | none => levelSet lvl key (Counter.empty.incrementU next rate)) lvl

/-- `LanguageModel.fineTune(text, learningRate)`: throws
`InvalidLearningRate` when `learningRate <= 0 || learningRate > 1`
(before touching any state), else adjusts every n-gram level. The result
pairs the post-state of `this` with the thrown-or-ok outcome. -/
def LanguageModel.fineTune (m : LanguageModel) (text : String) (rate : ℚ) :
    LanguageModel × Except LMError Unit :=
  if rate ≤ 0 ∨ 1 < rate then (m, .error .invalidLearningRate)
  else
    let tokens := tokenize text
    ({ m with
        ngram := { m.ngram with
          ngrams := (List.range' 1 m.maxN).foldl
            (fun ls n => ls.set (n - 1) (fineTuneLevel m.maxN rate tokens n (ls.getD (n - 1) [])))
            m.ngram.ngrams } },
      .ok ())

/-! ### Evaluation metrics (perplexity, evaluate) over JS numbers

The aggregate metrics use floating-point division and transcendental
functions; they are modelled over `ℝ`, with `Option ℝ` for a JS number
that may fail to be finite: `none` models `NaN` (in the paths the claims
exercise every non-finite value arises as `0 / 0`). -/

/-- A JS number that is either finite (`some`) or `NaN`/non-finite (`none`). -/
abbrev JSNum := Option ℝ

noncomputable section

/-- JS `+`: `NaN` propagates. -/
def jsAdd : JSNum → JSNum → JSNum
  | some a, some b => some (a + b)
  | _, _ => none

/-- JS `*`: `NaN` propagates. -/
def jsMul : JSNum → JSNum → JSNum
  | some a, some b => some (a * b)
  | _, _ => none

/-- JS `/`: a zero denominator yields a non-finite result (`0 / 0` is
`NaN`, the only case arising in the claims' paths); `NaN` propagates. -/
def jsDiv : JSNum → JSNum → JSNum
  | some a, some b => if b = 0 then none else some (a / b)
  | _, _ => none

/-- JS `x || 0` for a number `x`: `NaN` (falsy) is replaced by 0; a
finite number is kept (`0 || 0` is `0`, the same value). -/
def jsOrZero : JSNum → JSNum
  | none => some 0
  | some a => some a

/-- `Number.EPSILON` = 2^-52. -/
def jsEpsilon : ℝ := (2 : ℝ) ^ (-52 : ℤ)

/-- `LanguageModel.perplexity(text)`: tokenize; for each position `i`
build the context from up to `maxN - 1` preceding tokens
(`tokens.slice(Math.max(0, i - this.maxN + 1), i).join(" ")`), get the
model probability of `tokens[i]`, accumulate `Math.log(prob)`
(substituting `Math.log(Number.EPSILON)` when the probability is not
positive), and return `Math.exp(-logProbSum / tokens.length)` — `NaN`
(here `none`) when there are zero tokens. -/
def LanguageModel.perplexity (m : LanguageModel) (text : String) : JSNum :=
  let tokens := tokenize text
  let logProbSum : ℝ := (List.range tokens.length).foldl (fun acc i =>
    let start := i + 1 - m.maxN
    let context := joinSpace ((tokens.drop start).take (i - start))
    let prob := m.getProbability (tokens.getD i "") context
    if 0 < prob then acc + Real.log (prob : ℝ) else acc + Real.log jsEpsilon) 0
  if tokens.length = 0 then none else some (Real.exp (-logProbSum / (tokens.length : ℝ)))

/-- `LanguageModel.bleuPrecision(candidate, reference)`: clipped 1-gram
precision, `NaN` (`none`) for an empty candidate (`0 / 0`). -/
def bleuPrecision (candidate reference : List String) : JSNum :=
  let clippedCount : ℕ := (candidate.map (fun w => min (candidate.count w) (reference.count w))).sum
  if candidate.length = 0 then none
  else some ((clippedCount : ℝ) / (candidate.length : ℝ))

/-- One `{input, reference}` pair of `evaluate`'s test dataset. -/
structure EvalItem where
  input : String
  reference : String

/-- The accumulators of `evaluate`'s loop. -/
structure EvalAcc where
  totalPerplexity : JSNum
  totalBLEU : JSNum
  correctPredictions : ℕ
  totalPredictions : ℕ
  truePositives : ℕ
  falsePositives : ℕ
  falseNegatives : ℕ

/-- The four dataset-level aggregates returned by `evaluate`. -/
structure EvalResult where
  averagePerplexity : JSNum
  averageBLEUScore : JSNum
  accuracy : JSNum
  f1Score : JSNum

/-- The body of `evaluate`'s loop for one test item: accumulate the
input's perplexity and BLEU precision; count a correct prediction when
the top-1 prediction on `input.split(" ").slice(0, -1).join(" ")` equals
the last reference token (`undefined === undefined` counts as equal,
modelled by `Option` equality); classify the fixed token `"targetWord"`
for the F1 counters. -/
def evalStep (m : LanguageModel) (acc : EvalAcc) (item : EvalItem) : EvalAcc :=
  let tokens := tokenize item.input
  let refTokens := tokenize item.reference
  let pplx := m.perplexity item.input
  let precision := bleuPrecision tokens refTokens
  let pred? := (m.predict (joinSpace ((item.input.splitOn " ").dropLast)) 1).head?
  let correct := pred? == refTokens.getLast?
  let actualClass := refTokens.contains "targetWord"
  let predictedClass := tokens.contains "targetWord"
  { totalPerplexity := jsAdd acc.totalPerplexity pplx
    totalBLEU := jsAdd acc.totalBLEU precision
    correctPredictions := acc.correctPredictions + (if correct then 1 else 0)
    totalPredictions := acc.totalPredictions + 1
    truePositives := acc.truePositives + (if actualClass && predictedClass then 1 else 0)
    falsePositives := acc.falsePositives + (if !actualClass && predictedClass then 1 else 0)
    falseNegatives := acc.falseNegatives + (if actualClass && !predictedClass then 1 else 0) }

/-- `LanguageModel.evaluate(testData)`: run the loop from zeroed
accumulators, then form the aggregates — averages over `testData.length`,
`accuracy = correct / total`, and
`f1 = (2 * precision * recall) / (precision + recall) || 0`. No step of
the computation throws; degenerate divisions produce `NaN` (`none`). -/
def LanguageModel.evaluate (m : LanguageModel) (testData : List EvalItem) : EvalResult :=
  let a := testData.foldl (evalStep m) ⟨some 0, some 0, 0, 0, 0, 0, 0⟩
  let avgPerplexity := jsDiv a.totalPerplexity (some (testData.length : ℝ))
  let avgBLEU := jsDiv a.totalBLEU (some (testData.length : ℝ))
  let accuracy := jsDiv (some (a.correctPredictions : ℝ)) (some (a.totalPredictions : ℝ))
  let precision := jsDiv (some (a.truePositives : ℝ))
    (some ((a.truePositives : ℝ) + (a.falsePositives : ℝ)))
  let recallV := jsDiv (some (a.truePositives : ℝ))
    (some ((a.truePositives : ℝ) + (a.falseNegatives : ℝ)))
  let f1Score := jsOrZero (jsDiv (jsMul (some 2) (jsMul precision recallV)) (jsAdd precision recallV))
  { averagePerplexity := avgPerplexity
    averageBLEUScore := avgBLEU
    accuracy := accuracy
    f1Score := f1Score }

end

/-! ### Specification vocabulary used by the theorems -/

/-- The invariant claimed for `Counter`: no stored entry has a count `≤ 0`. -/
def CounterInv (c : Counter) : Prop :=
  ∀ p ∈ c.entries, 0 < p.2

instance (c : Counter) : Decidable (CounterInv c) :=
  inferInstanceAs (Decidable (∀ p ∈ c.entries, 0 < p.2))

/-- The total of the counter stored at key `k` of a level (0 when the key
is absent). -/
def totalAtKey (lvl : Level) (k : String) : ℚ :=
  match levelGet? lvl k with
  | some c => c.total
  | none => 0

/-- The number of occurrences of the token subsequence `s` as a length-`n`
slice of `T` (positions `j` with `j + n ≤ T.length`). -/
def occurrencesOf (T : List String) (n : ℕ) (s : List String) : ℕ :=
  (List.range (T.length + 1 - n)).countP (fun j => sliceTk T j n == s)

/-- A token that contains no space character (true of every token the
tokenizer produces, since it splits on whitespace). -/
def spaceFree (s : String) : Prop :=
  ' ' ∉ s.data

instance (s : String) : Decidable (spaceFree s) :=
  inferInstanceAs (Decidable (' ' ∉ s.data))

/-- The lookup `predictNextWord` performs at context length `n ≥ 1`:
level `n - 1` at the joined last `n` tokens. -/
def Ngram.levelHit (g : Ngram) (tokens : List String) (n : ℕ) : Option Counter :=
  levelGet? (g.ngrams.getD (n - 1) []) (joinSpace (lastN n tokens))

/-! ### Concrete instances used by witnesses and counterexamples -/

/-- The spec's training scenario: maxN 3, trained on
"hello world how are you hello world again". -/
def trainedLM : LanguageModel :=
  (LanguageModel.new (Ngram.new 3)).train "hello world how are you hello world again"

/-- The spec scenario's token sequence. -/
def helloTokens : List String :=
  ["hello", "world", "how", "are", "you", "hello", "world", "again"]

/-- The spec scenario's table alone: maxN 3, updated with `helloTokens`. -/
def helloNgram : Ngram :=
  (Ngram.new 3).updateModel helloTokens

/-- A token sequence containing spaces inside tokens, on which two
different length-2 slices produce the same joined context key
("a b c"). -/
def collideTokens : List String :=
  ["a", "b c", "a b", "c"]

/-- A small model used by witnesses: maxN 2, trained on "a b". -/
def smallLM : LanguageModel :=
  (LanguageModel.new (Ngram.new 2)).train "a b"

/-! ### Counter lemmas -/

/-- Every entry of `setEntryList l item v` was already in `l` or is the
new pair `(item, v)`. -/
theorem mem_setEntryList {l : List (String × ℚ)} {item : String} {v : ℚ} {q : String × ℚ}
    (h : q ∈ setEntryList l item v) : q ∈ l ∨ q = (item, v) := by
  induction l with
  | nil =>
    simp only [setEntryList, List.mem_singleton] at h
    exact Or.inr h
  | cons p rest ih =>
    rw [setEntryList] at h
    by_cases hp : (p.1 == item) = true
    · rw [if_pos hp] at h
      rcases List.mem_cons.mp h with h1 | h1
      · exact Or.inr h1
      · exact Or.inl (List.mem_cons_of_mem _ h1)
    · rw [if_neg hp] at h
      rcases List.mem_cons.mp h with h1 | h1
      · exact Or.inl (h1 ▸ List.mem_cons_self _ _)
      · rcases ih h1 with h2 | h2
        · exact Or.inl (List.mem_cons_of_mem _ h2)
        · exact Or.inr h2

/-- `removeEntryList` only removes entries. -/
theorem mem_removeEntryList {l : List (String × ℚ)} {item : String} {q : String × ℚ}
    (h : q ∈ removeEntryList l item) : q ∈ l := by
  induction l with
  | nil =>
    simp only [removeEntryList, List.not_mem_nil] at h
  | cons p rest ih =>
    rw [removeEntryList] at h
    by_cases hp : (p.1 == item) = true
    · rw [if_pos hp] at h
      exact List.mem_cons_of_mem _ h
    · rw [if_neg hp] at h
      rcases List.mem_cons.mp h with h1 | h1
      · exact h1 ▸ List.mem_cons_self _ _
      · exact List.mem_cons_of_mem _ (ih h1)

/-- Under the invariant, every stored count is positive, so `get` is
nonnegative. -/
theorem Counter.get_nonneg_of_inv {c : Counter} (h : CounterInv c) (item : String) :
    0 ≤ c.get item := by
  unfold Counter.get
  cases hf : c.entries.find? (fun p => p.1 == item) with
  | none => simp
  | some p => simpa using le_of_lt (h p (List.mem_of_find?_eq_some hf))

/-- A positive-amount unchecked increment preserves the invariant. -/
theorem CounterInv.incrementU {c : Counter} (h : CounterInv c) (item : String)
    {n : ℚ} (hn : 0 < n) : CounterInv (c.incrementU item n) := by
  intro q hq
  rcases mem_setEntryList hq with hq' | rfl
  · exact h q hq'
  · have := Counter.get_nonneg_of_inv h item
    simpa using by linarith

/-- The unchecked decrement preserves the invariant: a nonpositive result
is removed, not stored. -/
theorem CounterInv.decrementU {c : Counter} (h : CounterInv c) (item : String)
    (n : ℚ) : CounterInv (c.decrementU item n) := by
  unfold Counter.decrementU
  by_cases hc : 0 < c.get item - n
  · simp only [hc, if_true]
    intro q hq
    rcases mem_setEntryList hq with hq' | rfl
    · exact h q hq'
    · simpa using hc
  · simp only [hc, if_false]
    intro q hq
    exact h q (mem_removeEntryList hq)

/-- The empty counter satisfies the invariant. -/
theorem CounterInv.empty : CounterInv Counter.empty := by
  intro p hp
  simp [Counter.empty] at hp

/-- A fold of checked increments with positive amounts over an invariant
counter succeeds and preserves the invariant. -/
theorem foldlM_increment_ok (ps : List (String × ℚ)) (c : Counter)
    (hc : CounterInv c) (hps : ∀ p ∈ ps, 0 < p.2) :
    ∃ r, ps.foldlM (fun (c : Counter) p => c.increment p.1 p.2) c = .ok r ∧ CounterInv r := by
  induction ps generalizing c with
  | nil => exact ⟨c, rfl, hc⟩
  | cons p ps ih =>
    have hp : 0 < p.2 := hps p (List.mem_cons_self _ _)
    have hstep : c.increment p.1 p.2 = .ok (c.incrementU p.1 p.2) := by
      unfold Counter.increment
      rw [if_neg (not_lt.mpr (le_of_lt hp))]
    rw [List.foldlM_cons, hstep]
    exact ih (c.incrementU p.1 p.2) (hc.incrementU p.1 hp)
      (fun q hq => hps q (List.mem_cons_of_mem _ hq))

/-- A fold of checked decrements with nonnegative amounts over an
invariant counter succeeds and preserves the invariant. -/
theorem foldlM_decrement_ok (ps : List (String × ℚ)) (c : Counter)
    (hc : CounterInv c) (hps : ∀ p ∈ ps, 0 ≤ p.2) :
    ∃ r, ps.foldlM (fun (c : Counter) p => c.decrement p.1 p.2) c = .ok r ∧ CounterInv r := by
  induction ps generalizing c with
  | nil => exact ⟨c, rfl, hc⟩
  | cons p ps ih =>
    have hp : 0 ≤ p.2 := hps p (List.mem_cons_self _ _)
    have hstep : c.decrement p.1 p.2 = .ok (c.decrementU p.1 p.2) := by
      unfold Counter.decrement
      rw [if_neg (not_lt.mpr hp)]
    rw [List.foldlM_cons, hstep]
    exact ih (c.decrementU p.1 p.2) (hc.decrementU p.1 p.2)
      (fun q hq => hps q (List.mem_cons_of_mem _ hq))

/-- A fold of unchecked unit increments preserves the invariant. -/
theorem foldl_incrementU_one_inv (l : List String) (c : Counter) (hc : CounterInv c) :
    CounterInv (l.foldl (fun c item => c.incrementU item 1) c) := by
  induction l generalizing c with
  | nil => exact hc
  | cons s l ih => exact ih _ (hc.incrementU s one_pos)

/-- `Except.bind` on an `ok` value reduces to the continuation. -/
theorem except_ok_bind {eps alpha beta : Type} (x : alpha) (f : alpha → Except eps beta) :
    (Except.ok x >>= f) = f x := rfl

/-! ### C2 — Counter invariant -/

/-- C2, counterexample: `increment` with amount 0 on an absent item stores
a zero-count entry, so not every Counter operation preserves the claimed
"no entry has count ≤ 0" invariant. -/
theorem counter_increment_zero_breaks_invariant :
    CounterInv Counter.empty ∧
    Counter.empty.increment "a" 0 = .ok (Counter.mk [("a", 0)]) ∧
    ¬ CounterInv (Counter.mk [("a", 0)]) := by
  refine ⟨by decide, ?_, by decide⟩
  simp [Counter.increment, Counter.incrementU, Counter.empty, Counter.get, setEntryList,
    List.find?]

/-- C2 (amended): Counter operations preserve the "no entry has count
≤ 0" invariant provided every increment amount involved is strictly
positive: construction from an initial list, `increment` with a positive
amount, `decrement` with any amount it accepts, `subtract` of two
invariant counters, and construction from a mapping with positive values
all preserve it (zero-or-negative decrement results are removed, not
stored); only `increment` (or mapping construction) with amount 0 on an
absent item can store a non-positive entry. -/
theorem counter_ops_preserve_invariant :
    (∀ l : List String, CounterInv (Counter.fromList l)) ∧
    (∀ (c : Counter) (item : String) (n : ℚ) (c' : Counter),
      CounterInv c → 0 < n → c.increment item n = .ok c' → CounterInv c') ∧
    (∀ (c : Counter) (item : String) (n : ℚ) (c' : Counter),
      CounterInv c → c.decrement item n = .ok c' → CounterInv c') ∧
    (∀ (c d r : Counter), CounterInv c → CounterInv d →
      c.subtract d = .ok r → CounterInv r) ∧
    (∀ (ps : List (String × ℚ)) (r : Counter), (∀ p ∈ ps, 0 < p.2) →
      Counter.fromMapping ps = .ok r → CounterInv r) := by
  refine ⟨?_, ?_, ?_, ?_, ?_⟩
  · intro l
    exact foldl_incrementU_one_inv l Counter.empty CounterInv.empty
  · intro c item n c' hc hn hok
    unfold Counter.increment at hok
    rw [if_neg (not_lt.mpr (le_of_lt hn))] at hok
    cases hok
    exact hc.incrementU item hn
  · intro c item n c' hc hok
    unfold Counter.decrement at hok
    by_cases hn : n < 0
    · rw [if_pos hn] at hok; cases hok
    · rw [if_neg hn] at hok
      cases hok
      exact hc.decrementU item n
  · intro c d r hc hd hok
    unfold Counter.subtract at hok
    obtain ⟨r1, h1, hr1⟩ := foldlM_increment_ok c.entries Counter.empty CounterInv.empty hc
    obtain ⟨r2, h2, hr2⟩ := foldlM_decrement_ok d.entries r1 hr1
      (fun p hp => le_of_lt (hd p hp))
    rw [h1] at hok
    have hred : (Except.ok r1 >>= fun r =>
        d.entries.foldlM (fun (r : Counter) p => r.decrement p.1 p.2) r) =
        d.entries.foldlM (fun (r : Counter) p => r.decrement p.1 p.2) r1 := rfl
    rw [hred, h2] at hok
    cases hok
    exact hr2
  · intro ps r hps hok
    unfold Counter.fromMapping at hok
    obtain ⟨r1, h1, hr1⟩ := foldlM_increment_ok ps Counter.empty CounterInv.empty hps
    rw [h1] at hok
    cases hok
    exact hr1

/-- C2, witness: each clause of the amended invariant theorem applied at
a concrete input. -/
theorem counter_ops_preserve_invariant_witness :
    CounterInv (Counter.fromList ["a", "b", "a"]) ∧
    CounterInv (Counter.mk [("a", 1), ("b", 2)]) ∧
    CounterInv (Counter.mk [("b", 2)]) ∧
    CounterInv (Counter.mk [("a", 1)]) ∧
    CounterInv (Counter.mk [("x", 3)]) := by
  have hinc : (Counter.mk [("a", 1)]).increment "b" 2 = .ok (Counter.mk [("a", 1), ("b", 2)]) := by
    simp [Counter.increment, Counter.incrementU, Counter.get, setEntryList, List.find?]
  have hdec : (Counter.mk [("a", 1), ("b", 2)]).decrement "a" 1 = .ok (Counter.mk [("b", 2)]) := by
    simp [Counter.decrement, Counter.decrementU, Counter.get, setEntryList, removeEntryList,
      List.find?]
  have hsub : (Counter.mk [("a", 2)]).subtract (Counter.mk [("a", 1)]) =
      .ok (Counter.mk [("a", 1)]) := by
    unfold Counter.subtract
    simp only [List.foldlM, Counter.increment, Counter.decrement, except_ok_bind]
    norm_num [Counter.incrementU, Counter.decrementU, Counter.empty, Counter.get, setEntryList,
      removeEntryList, List.find?, except_ok_bind]
  have hmap : Counter.fromMapping [("x", 3)] = .ok (Counter.mk [("x", 3)]) := by
    simp [Counter.fromMapping, Counter.increment, Counter.incrementU, Counter.empty,
      Counter.get, setEntryList, List.foldlM, List.find?, except_ok_bind]
  refine ⟨counter_ops_preserve_invariant.1 ["a", "b", "a"],
    counter_ops_preserve_invariant.2.1 (Counter.mk [("a", 1)]) "b" 2 _ (by decide)
      (by norm_num) hinc,
    counter_ops_preserve_invariant.2.2.1 (Counter.mk [("a", 1), ("b", 2)]) "a" 1 _ (by decide)
      hdec,
    counter_ops_preserve_invariant.2.2.2.1 (Counter.mk [("a", 2)]) (Counter.mk [("a", 1)]) _
      (by decide) (by decide) hsub,
    counter_ops_preserve_invariant.2.2.2.2 [("x", 3)] _ (by decide) hmap⟩

/-! ### C8 — constructor clamp -/

/-- C8, counterexample: the constructor only clamps from above
(`Math.min(maxN, 5)`); the argument 0 is below 1 and is NOT clamped up,
so the constructed table's `maxN` does not lie in `[1, 5]`. -/
theorem ngram_constructor_no_lower_clamp :
    (Ngram.new 0).maxN = 0 ∧ ¬(1 ≤ (Ngram.new 0).maxN) := by
  refine ⟨rfl, by decide⟩

/-- C8 (amended): for every nonnegative integer argument the constructed
table's `maxN` is `min maxN 5` — arguments above 5 are clamped down to 5,
but arguments below 1 are NOT clamped up (0 yields a table with zero
levels; a negative argument would make the JS array construction throw) —
and the table has exactly `maxN` levels. -/
theorem ngram_constructor_clamp (k : ℕ) :
    (Ngram.new k).maxN = min k 5 ∧ (Ngram.new k).ngrams.length = (Ngram.new k).maxN := by
  exact ⟨rfl, by simp [Ngram.new]⟩

/-! ### C6 — fineTune learning-rate check -/

/-- C6: `fineTune` throws `InvalidLearningRate` exactly when the learning
rate lies outside the half-open interval (0, 1] (in particular at rate 0),
and the model state is unchanged when it throws (the check precedes every
mutation). -/
theorem fineTune_learning_rate_check (m : LanguageModel) (text : String) (rate : ℚ) :
    ((m.fineTune text rate).2 = .error .invalidLearningRate ↔ ¬(0 < rate ∧ rate ≤ 1)) ∧
    ((m.fineTune text rate).2 = .error .invalidLearningRate → (m.fineTune text rate).1 = m) := by
  unfold LanguageModel.fineTune
  by_cases h : rate ≤ 0 ∨ 1 < rate
  · rw [if_pos h]
    refine ⟨⟨fun _ => ?_, fun _ => rfl⟩, fun _ => rfl⟩
    rintro ⟨h1, h2⟩
    rcases h with h | h
    · exact absurd h1 (not_lt.mpr h)
    · exact absurd h2 (not_le.mpr h)
  · rw [if_neg h]
    rw [not_or, not_le, not_lt] at h
    refine ⟨⟨fun hc => ?_, fun hc => absurd ⟨h.1, h.2⟩ hc⟩, fun hc => ?_⟩
    · simp at hc
    · simp at hc

/-- C6, witness: at rate exactly 0 on the trained model, `fineTune`
raises `InvalidLearningRate` and leaves the model unchanged. -/
theorem fineTune_learning_rate_check_witness :
    (trainedLM.fineTune "some new text" 0).2 = .error .invalidLearningRate ∧
    (trainedLM.fineTune "some new text" 0).1 = trainedLM := by
  have h := fineTune_learning_rate_check trainedLM "some new text" 0
  have he : (trainedLM.fineTune "some new text" 0).2 = .error .invalidLearningRate :=
    h.1.mpr (by norm_num)
  exact ⟨he, h.2 he⟩

/-! ### C10 — fineTune frame property -/

/-- C10: for every model state, text and valid learning rate, `fineTune`
leaves the vocabulary and the context map unchanged (it only writes into
the n-gram levels); only `train` adds tokens to the vocabulary. -/
theorem fineTune_preserves_vocabulary_and_context (m : LanguageModel) (text : String)
    (rate : ℚ) (h1 : 0 < rate) (h2 : rate ≤ 1) :
    (m.fineTune text rate).1.vocabulary = m.vocabulary ∧
    (m.fineTune text rate).1.context = m.context := by
  unfold LanguageModel.fineTune
  rw [if_neg (by rw [not_or, not_le, not_lt]; exact ⟨h1, h2⟩)]
  exact ⟨rfl, rfl⟩


/-- C10, witness: fine-tuning the small trained model on entirely unseen
text creates a fresh unigram entry ("new") while the vocabulary and the
context stay exactly as before. -/
theorem fineTune_preserves_vocabulary_and_context_witness :
    (smallLM.fineTune "new context here" 1).1.vocabulary = smallLM.vocabulary ∧
    (smallLM.fineTune "new context here" 1).1.context = smallLM.context ∧
    (levelGet? ((smallLM.fineTune "new context here" 1).1.ngram.ngrams.getD 0 []) "new").isSome
      = true ∧
    "new" ∉ smallLM.vocabulary := by
  have h := fineTune_preserves_vocabulary_and_context smallLM "new context here" 1
    (by norm_num) (by norm_num)
  exact ⟨h.1, h.2, by decide, by decide⟩

/-! ### C7 — evaluate on the empty dataset -/

/-- C7: `evaluate([])` does not throw (the embedding is a total
function); the average perplexity, average BLEU score and accuracy are
all `0 / 0`, i.e. `NaN` (`none`), and `f1Score` is exactly 0 because
`NaN || 0` evaluates to 0. -/
theorem evaluate_empty_dataset (m : LanguageModel) :
    m.evaluate [] =
      { averagePerplexity := none, averageBLEUScore := none,
        accuracy := none, f1Score := some 0 } := by
  simp [LanguageModel.evaluate, jsDiv, jsMul, jsAdd, jsOrZero]

/-! ### C9 — getProbability level lookup and raw-string key -/

/-- C9: on a well-formed model (`ngrams.length = maxN`), `getProbability`
returns 0 whenever the context's token count exceeds `maxN` (the level
index `tokenCount - 1` is not clamped, so a non-existent level is
consulted); and whenever the level exists, the counter is located with
the RAW context string as key — the probability is `count/total` of the
counter stored under the raw string when present (0 on a zero total),
and 0 when the raw string is absent. -/
theorem getProbability_level_and_raw_key (m : LanguageModel) (word context : String)
    (hw : m.ngram.ngrams.length = m.maxN) :
    (m.maxN < (tokenize context).length → m.getProbability word context = 0) ∧
    (∀ lvl : Level, 1 ≤ (tokenize context).length →
      m.ngram.ngrams[(tokenize context).length - 1]? = some lvl →
      (levelGet? lvl context = none → m.getProbability word context = 0) ∧
      (∀ ctr : Counter, levelGet? lvl context = some ctr →
        m.getProbability word context =
          if 0 < ctr.total then ctr.get word / ctr.total else 0)) := by
  constructor
  · intro hgt
    have h0 : ¬ (tokenize context).length = 0 := by omega
    have hnone : m.ngram.ngrams[(tokenize context).length - 1]? = none :=
      List.getElem?_eq_none (by omega)
    simp only [LanguageModel.getProbability, if_neg h0, hnone]
  · intro lvl h1 hlvl
    have h0 : ¬ (tokenize context).length = 0 := by omega
    constructor
    · intro hmiss
      simp only [LanguageModel.getProbability, if_neg h0, hlvl, hmiss]
    · intro ctr hhit
      simp only [LanguageModel.getProbability, if_neg h0, hlvl, hhit]

/-! ### Concrete evaluation lemmas (the `ℚ` arithmetic inside counters is
not kernel-reducible, so concrete model states are first rewritten to
literal form by `simp`). -/

/-- The tokenizer on the spec's training text. -/
theorem tokenize_hello :
    tokenize "hello world how are you hello world again" = helloTokens := by decide

/-- Joining the spec's token sequence back. -/
theorem joinSpace_helloTokens :
    joinSpace helloTokens = "hello world how are you hello world again" := by decide

/-- The tokenizer on the small model's training text. -/
theorem tokenize_ab : tokenize "a b" = ["a", "b"] := by decide

/-- The literal form of the small trained model. -/
theorem smallLM_eval : smallLM =
    LanguageModel.mk
      (Ngram.mk 2 [[("a", Counter.mk [("b", 1)]), ("b", Counter.mk [("", 1)])],
                   [("a b", Counter.mk [("", 1)])]])
      2 ["a", "b"] [] := by
  show (LanguageModel.new (Ngram.new 2)).train "a b" = _
  simp [LanguageModel.train, LanguageModel.new, Ngram.new, Ngram.learn, Ngram.updateModel,
    tokenize_ab, joinSpace, updateLevel, updateLevelStep, levelGet?, levelSet,
    Counter.incrementU, Counter.get, Counter.empty, setEntryList, sliceTk,
    List.find?, List.range_succ, List.range', vocabInsert]

/-- The literal form of the spec-scenario n-gram table. -/
theorem helloNgram_eval : helloNgram =
    Ngram.mk 3
      [[("hello", Counter.mk [("world", 2)]),
        ("world", Counter.mk [("how", 1), ("again", 1)]),
        ("how", Counter.mk [("are", 1)]),
        ("are", Counter.mk [("you", 1)]),
        ("you", Counter.mk [("hello", 1)]),
        ("again", Counter.mk [("", 1)])],
       [("hello world", Counter.mk [("how", 1), ("again", 1)]),
        ("world how", Counter.mk [("are", 1)]),
        ("how are", Counter.mk [("you", 1)]),
        ("are you", Counter.mk [("hello", 1)]),
        ("you hello", Counter.mk [("world", 1)]),
        ("world again", Counter.mk [("", 1)])],
       [("hello world how", Counter.mk [("are", 1)]),
        ("world how are", Counter.mk [("you", 1)]),
        ("how are you", Counter.mk [("hello", 1)]),
        ("are you hello", Counter.mk [("world", 1)]),
        ("you hello world", Counter.mk [("again", 1)]),
        ("hello world again", Counter.mk [("", 1)])]] := by
  show (Ngram.new 3).updateModel helloTokens = _
  simp [Ngram.new, Ngram.updateModel, helloTokens, updateLevel, updateLevelStep,
    levelGet?, levelSet, Counter.incrementU, Counter.get, Counter.empty, setEntryList,
    sliceTk, joinSpace, List.find?, List.range_succ, List.range']
  all_goals norm_num

/-- The literal form of the spec-scenario trained model. -/
theorem trainedLM_eval : trainedLM =
    LanguageModel.mk
      (Ngram.mk 3
        [[("hello", Counter.mk [("world", 2)]),
          ("world", Counter.mk [("how", 1), ("again", 1)]),
          ("how", Counter.mk [("are", 1)]),
          ("are", Counter.mk [("you", 1)]),
          ("you", Counter.mk [("hello", 1)]),
          ("again", Counter.mk [("", 1)])],
         [("hello world", Counter.mk [("how", 1), ("again", 1)]),
          ("world how", Counter.mk [("are", 1)]),
          ("how are", Counter.mk [("you", 1)]),
          ("are you", Counter.mk [("hello", 1)]),
          ("you hello", Counter.mk [("world", 1)]),
          ("world again", Counter.mk [("", 1)])],
         [("hello world how", Counter.mk [("are", 1)]),
          ("world how are", Counter.mk [("you", 1)]),
          ("how are you", Counter.mk [("hello", 1)]),
          ("are you hello", Counter.mk [("world", 1)]),
          ("you hello world", Counter.mk [("again", 1)]),
          ("hello world again", Counter.mk [("", 1)])]])
      3 ["hello", "world", "how", "are", "you", "again"] [] := by
  have h1 : trainedLM = LanguageModel.mk
      ((Ngram.new 3).updateModel (tokenize (joinSpace (tokenize
        "hello world how are you hello world again"))))
      3
      ((tokenize "hello world how are you hello world again").foldl vocabInsert [])
      [] := rfl
  rw [h1, tokenize_hello, joinSpace_helloTokens, tokenize_hello]
  simp only [LanguageModel.mk.injEq, and_true, true_and]
  refine ⟨helloNgram_eval, ?_⟩
  simp [helloTokens, vocabInsert]

/-- The literal form of the collision table (maxN 2, updated with
`collideTokens`, whose tokens contain inner spaces). -/
theorem collideNgram_eval : (Ngram.new 2).updateModel collideTokens =
    Ngram.mk 2
      [[("a", Counter.mk [("b c", 1)]),
        ("b c", Counter.mk [("a b", 1)]),
        ("a b", Counter.mk [("c", 1)]),
        ("c", Counter.mk [("", 1)])],
       [("a b c", Counter.mk [("a b", 1), ("", 1)]),
        ("b c a b", Counter.mk [("c", 1)])]] := by
  simp [Ngram.new, Ngram.updateModel, collideTokens, updateLevel, updateLevelStep,
    levelGet?, levelSet, Counter.incrementU, Counter.get, Counter.empty, setEntryList,
    sliceTk, joinSpace, List.find?, List.range_succ, List.range']

/-- C9, witness: on the small model (maxN 2) the three-token context
"a b c" exceeds maxN and yields probability 0; and for the one-token
context "a" the stored counter is found under the raw key and gives
probability `1/1 = 1` for "b". -/
theorem getProbability_level_and_raw_key_witness :
    smallLM.getProbability "x" "a b c" = 0 ∧ smallLM.getProbability "b" "a" = 1 := by
  constructor
  · exact (getProbability_level_and_raw_key smallLM "x" "a b c" (by decide)).1 (by decide)
  · have h := ((getProbability_level_and_raw_key smallLM "b" "a" (by decide)).2
      [("a", Counter.mk [("b", 1)]), ("b", Counter.mk [("", 1)])] (by decide)
      (by rw [smallLM_eval]; rfl)).2
      (Counter.mk [("b", 1)]) (by decide)
    rw [h]
    norm_num [Counter.total, Counter.get, List.find?]

/-! ### C5 — mostCommon -/

/-- Inserting a pair into a list keeps the count-`q` entries' order: the
insertion point is before every passed-over element (all of which have
strictly larger counts). -/
theorem filter_orderedInsert (q : ℚ) (a : String × ℚ) (l : List (String × ℚ)) :
    (List.orderedInsert byCountDesc a l).filter (fun p => p.2 == q) =
      if a.2 = q then a :: l.filter (fun p => p.2 == q)
      else l.filter (fun p => p.2 == q) := by
  induction l with
  | nil => by_cases ha : a.2 = q <;> simp [List.orderedInsert, ha]
  | cons b l ih =>
    by_cases hr : byCountDesc a b
    · rw [List.orderedInsert, if_pos hr]
      by_cases ha : a.2 = q <;> simp [List.filter_cons, ha]
    · rw [List.orderedInsert, if_neg hr]
      have hlt : a.2 < b.2 := lt_of_not_le hr
      by_cases ha : a.2 = q
      · have hbq : ¬ b.2 = q := by rw [← ha]; exact ne_of_gt hlt
        simp [List.filter_cons, ha, hbq, ih]
      · simp [List.filter_cons, ha, ih]

/-- The stable insertion sort keeps the relative order of entries with
any fixed count `q`. -/
theorem filter_insertionSort (q : ℚ) (l : List (String × ℚ)) :
    (List.insertionSort byCountDesc l).filter (fun p => p.2 == q) =
      l.filter (fun p => p.2 == q) := by
  induction l with
  | nil => rfl
  | cons a l ih =>
    rw [List.insertionSort, filter_orderedInsert]
    by_cases ha : a.2 = q <;> simp [List.filter_cons, ha, ih]

/-- C5: `mostCommon` returns all stored (item, count) pairs sorted by
count descending (`byCountDesc`); entries with equal counts keep the
counter's insertion order (the filter at any fixed count is unchanged);
with a limit it returns the first `limit` pairs of the same sorted list;
and concretely `Counter(["a","b","a","c","b","b"]).mostCommon()` is
`[["b",3],["a",2],["c",1]]`. -/
theorem mostCommon_sorted_stable_limited (c : Counter) (k : ℕ) (q : ℚ) :
    List.Sorted byCountDesc (c.mostCommon none) ∧
    (c.mostCommon none).Perm c.entries ∧
    (c.mostCommon none).filter (fun p => p.2 == q) =
      c.entries.filter (fun p => p.2 == q) ∧
    c.mostCommon (some k) = (c.mostCommon none).take k ∧
    (Counter.fromList ["a", "b", "a", "c", "b", "b"]).mostCommon none =
      [("b", 3), ("a", 2), ("c", 1)] := by
  refine ⟨List.sorted_insertionSort byCountDesc c.entries,
    List.perm_insertionSort byCountDesc c.entries,
    filter_insertionSort q c.entries, rfl, ?_⟩
  have h : Counter.fromList ["a", "b", "a", "c", "b", "b"] =
      Counter.mk [("a", 2), ("b", 3), ("c", 1)] := by
    simp [Counter.fromList, Counter.incrementU, Counter.empty, Counter.get, setEntryList,
      List.find?]
    all_goals norm_num
  rw [h]
  norm_num [Counter.mostCommon, List.insertionSort, List.orderedInsert, byCountDesc]

/-! ### C4 — strict discrete backoff -/

/-- A successful level lookup returns a counter stored in the level. -/
theorem levelGet?_some_mem {lvl : Level} {key : String} {ctr : Counter}
    (h : levelGet? lvl key = some ctr) : ∃ p ∈ lvl, p.2 = ctr := by
  unfold levelGet? at h
  cases hf : lvl.find? (fun p => p.1 == key) with
  | none => rw [hf] at h; cases h
  | some p =>
    rw [hf] at h
    simp only [Option.map_some', Option.some.injEq] at h
    exact ⟨p, List.mem_of_find?_eq_some hf, h⟩

/-- `getD` at a valid index is a member of the list. -/
theorem getD_mem_of_lt {α : Type} {l : List α} {k : ℕ} (h : k < l.length) (d : α) :
    l.getD k d ∈ l := by
  rw [List.getD_eq_getElem?_getD, List.getElem?_eq_getElem h]
  exact List.getElem_mem h

/-- If every level the loop can reach misses, the backoff loop returns
the empty list. -/
theorem predictLoop_all_miss (g : Ngram) (tokens : List String) :
    ∀ k, (∀ n, 1 ≤ n → n ≤ k → g.levelHit tokens n = none) →
      g.predictLoop tokens k = [] := by
  intro k
  induction k with
  | zero => intro _; rfl
  | succ k ih =>
    intro h
    have hk : levelGet? (g.ngrams.getD k []) (joinSpace (lastN (k + 1) tokens)) = none :=
      h (k + 1) (by omega) (le_refl _)
    rw [Ngram.predictLoop, hk]
    exact ih (fun n h1 h2 => h n h1 (by omega))

/-- The backoff loop returns the `mostCommon` words of the counter at
the largest context length that hits. -/
theorem predictLoop_hit (g : Ngram) (tokens : List String) :
    ∀ k n ctr, 1 ≤ n → n ≤ k →
      g.levelHit tokens n = some ctr →
      (∀ m, n < m → m ≤ k → g.levelHit tokens m = none) →
      g.predictLoop tokens k = (ctr.mostCommon none).map Prod.fst := by
  intro k
  induction k with
  | zero => intro n ctr h1 h2 _ _; omega
  | succ k ih =>
    intro n ctr h1 h2 hhit hmiss
    by_cases hn : n = k + 1
    · subst hn
      have : levelGet? (g.ngrams.getD k []) (joinSpace (lastN (k + 1) tokens)) = some ctr := hhit
      rw [Ngram.predictLoop, this]
    · have hk : levelGet? (g.ngrams.getD k []) (joinSpace (lastN (k + 1) tokens)) = none :=
        hmiss (k + 1) (by omega) (le_refl _)
      rw [Ngram.predictLoop, hk]
      exact ih n ctr h1 (by omega) hhit (fun m hm1 hm2 => hmiss m hm1 (by omega))

/-- On a table whose stored counters are all nonempty, an empty loop
result means every reachable level missed. -/
theorem predictLoop_empty_implies_miss (g : Ngram) (tokens : List String)
    (hne : ∀ lvl ∈ g.ngrams, ∀ kv ∈ lvl, kv.2.entries ≠ []) :
    ∀ k, g.predictLoop tokens k = [] →
      ∀ n, 1 ≤ n → n ≤ k → g.levelHit tokens n = none := by
  intro k
  induction k with
  | zero => intro _ n h1 h2; omega
  | succ k ih =>
    intro hres n h1 h2
    cases hhit : levelGet? (g.ngrams.getD k []) (joinSpace (lastN (k + 1) tokens)) with
    | some ctr =>
      exfalso
      rw [Ngram.predictLoop, hhit] at hres
      have hres' : List.map Prod.fst (ctr.mostCommon none) = [] := hres
      have hperm := List.perm_insertionSort byCountDesc ctr.entries
      have hmc : ctr.mostCommon none = [] := List.map_eq_nil_iff.mp hres'
      have hent : ctr.entries = [] := by
        have := hperm.length_eq
        rw [show List.insertionSort byCountDesc ctr.entries = ctr.mostCommon none from rfl,
          hmc] at this
        exact List.length_eq_zero.mp this.symm
      have hklen : k < g.ngrams.length := by
        by_contra hk
        rw [List.getD_eq_getElem?_getD, List.getElem?_eq_none (by omega)] at hhit
        simp [levelGet?] at hhit
      obtain ⟨p, hp, hpc⟩ := levelGet?_some_mem hhit
      exact hne _ (getD_mem_of_lt hklen []) p hp (hpc ▸ hent)
    | none =>
      by_cases hn : n = k + 1
      · subst hn; exact hhit
      · rw [Ngram.predictLoop, hhit] at hres
        exact ih hres n h1 (by omega)

/-- C4: `predictNextWord` tokenizes the prefix and backs off strictly:
it returns the `mostCommon` next-token list of the level matched by the
longest context length `n ≤ min(tokens, maxN)` whose last-`n`-tokens key
is present, never a shorter context's result when a longer one has a
stored entry; and (on a table whose stored counters are nonempty, as
training produces) it returns the empty sequence exactly when no level
matches. -/
theorem predictNextWord_backoff (g : Ngram) (tokens : List String) :
    (∀ pre : String, g.predictNextWord pre = g.predictNextWordT (tokenize pre)) ∧
    (∀ n ctr, 1 ≤ n → n ≤ min tokens.length g.maxN →
      g.levelHit tokens n = some ctr →
      (∀ m, n < m → m ≤ min tokens.length g.maxN → g.levelHit tokens m = none) →
      g.predictNextWordT tokens = (ctr.mostCommon none).map Prod.fst) ∧
    ((∀ lvl ∈ g.ngrams, ∀ kv ∈ lvl, kv.2.entries ≠ []) →
      (g.predictNextWordT tokens = [] ↔
        ∀ n, 1 ≤ n → n ≤ min tokens.length g.maxN → g.levelHit tokens n = none)) := by
  refine ⟨fun pre => rfl, ?_, ?_⟩
  · intro n ctr h1 h2 hhit hmiss
    exact predictLoop_hit g tokens (min tokens.length g.maxN) n ctr h1 h2 hhit hmiss
  · intro hne
    exact ⟨fun hres n h1 h2 => predictLoop_empty_implies_miss g tokens hne _ hres n h1 h2,
      fun h => predictLoop_all_miss g tokens _ h⟩

/-- C4, witness: on the spec-scenario table, the two-token context
"hello world" hits level 2 and returns `["how", "again"]` (tie broken by
insertion order), and an unseen prefix returns `[]`. -/
theorem predictNextWord_backoff_witness :
    helloNgram.predictNextWordT ["hello", "world"] = ["how", "again"] ∧
    helloNgram.predictNextWordT ["zzz"] = [] := by
  constructor
  · have happ := (predictNextWord_backoff helloNgram ["hello", "world"]).2.1 2
      (Counter.mk [("how", 1), ("again", 1)])
      (by omega)
      (by rw [helloNgram_eval]; decide)
      (by rw [helloNgram_eval]; decide)
      (by
        intro m hm1 hm2
        rw [helloNgram_eval] at hm2
        norm_num at hm2
        omega)
    rw [happ]
    decide
  · refine ((predictNextWord_backoff helloNgram ["zzz"]).2.2
      (by rw [helloNgram_eval]; decide)).mpr ?_
    intro n h1 h2
    rw [helloNgram_eval] at h2
    norm_num at h2
    have hn1 : n = 1 := le_antisymm h2 h1
    subst hn1
    rw [helloNgram_eval]
    decide


/-! ### C3 — per-context totals after updateModel -/

/-- `getD` after `set` at a different index is unchanged. -/
theorem listGetD_set_ne {α : Type} (l : List α) (i j : ℕ) (x d : α) (h : i ≠ j) :
    (l.set i x).getD j d = l.getD j d := by
  rw [List.getD_eq_getElem?_getD, List.getD_eq_getElem?_getD, List.getElem?_set_ne h]

/-- `getD` after `set` at the same valid index yields the new value. -/
theorem listGetD_set_self {α : Type} (l : List α) (i : ℕ) (x d : α) (h : i < l.length) :
    (l.set i x).getD i d = x := by
  rw [List.getD_eq_getElem?_getD, List.getElem?_set_self h]
  rfl

/-- `find?` evaluation at a matching head. -/
theorem find?_cons_true {α : Type} (pred : α → Bool) (a : α) (l : List α)
    (h : pred a = true) : List.find? pred (a :: l) = some a := by
  rw [List.find?, h]

/-- `find?` evaluation at a non-matching head. -/
theorem find?_cons_false {α : Type} (pred : α → Bool) (a : α) (l : List α)
    (h : pred a = false) : List.find? pred (a :: l) = List.find? pred l := by
  rw [List.find?, h]

/-- Setting a key's count to its current value plus `n` raises the sum of
all counts by exactly `n` (the list-level core of `total_incrementU`). -/
theorem total_setEntryList (l : List (String × ℚ)) (item : String) (n : ℚ) :
    ((setEntryList l item (Counter.get ⟨l⟩ item + n)).map Prod.snd).sum
      = (l.map Prod.snd).sum + n := by
  induction l with
  | nil => simp [setEntryList, Counter.get, List.find?]
  | cons p rest ih =>
    by_cases hp : (p.1 == item) = true
    · rw [setEntryList, if_pos hp]
      have hg : Counter.get ⟨p :: rest⟩ item = p.2 := by
        simp only [Counter.get]
        rw [find?_cons_true (fun q => q.1 == item) p rest hp]
      rw [hg]
      simp only [List.map_cons, List.sum_cons]
      ring
    · have hp' : (p.1 == item) = false := by simpa using hp
      rw [setEntryList, if_neg hp]
      have hg : Counter.get ⟨p :: rest⟩ item = Counter.get ⟨rest⟩ item := by
        simp only [Counter.get]
        rw [find?_cons_false (fun q => q.1 == item) p rest hp']
      rw [hg]
      simp only [List.map_cons, List.sum_cons, ih]
      ring

/-- An unchecked increment adds exactly its amount to the total. -/
theorem Counter.total_incrementU (c : Counter) (item : String) (n : ℚ) :
    (c.incrementU item n).total = c.total + n := by
  cases c with
  | mk l => exact total_setEntryList l item n

/-- `levelSet` then `levelGet?` at the same key yields the new counter. -/
theorem levelGet?_levelSet_self (lvl : Level) (k : String) (c : Counter) :
    levelGet? (levelSet lvl k c) k = some c := by
  induction lvl with
  | nil => simp [levelSet, levelGet?, List.find?]
  | cons p rest ih =>
    by_cases hp : (p.1 == k) = true
    · rw [levelSet, if_pos hp]
      simp [levelGet?, List.find?]
    · rw [levelSet, if_neg hp]
      unfold levelGet? at ih ⊢
      rw [find?_cons_false (fun q => q.1 == k) p _ (by simpa using hp)]
      exact ih

/-- `levelSet` leaves the lookup of every other key unchanged. -/
theorem levelGet?_levelSet_ne (lvl : Level) (k k' : String) (c : Counter) (h : k ≠ k') :
    levelGet? (levelSet lvl k c) k' = levelGet? lvl k' := by
  have hkk' : ((k, c).1 == k') = false := by simpa using h
  induction lvl with
  | nil =>
    unfold levelSet levelGet?
    rw [find?_cons_false (fun q => q.1 == k') (k, c) [] hkk']
  | cons p rest ih =>
    by_cases hp : (p.1 == k) = true
    · have hp1 : p.1 = k := by simpa using hp
      have hpk' : (p.1 == k') = false := by simp [hp1, h]
      rw [levelSet, if_pos hp]
      unfold levelGet?
      rw [find?_cons_false (fun q => q.1 == k') (k, c) rest hkk',
        find?_cons_false (fun q => q.1 == k') p rest hpk']
    · rw [levelSet, if_neg hp]
      by_cases hq : (p.1 == k') = true
      · unfold levelGet?
        rw [find?_cons_true (fun q => q.1 == k') p _ hq,
          find?_cons_true (fun q => q.1 == k') p rest hq]
      · unfold levelGet? at ih ⊢
        rw [find?_cons_false (fun q => q.1 == k') p _ (by simpa using hq),
          find?_cons_false (fun q => q.1 == k') p rest (by simpa using hq)]
        exact ih

/-- `totalAtKey` through a successful lookup. -/
theorem totalAtKey_eq_of_some {lvl : Level} {k : String} {c : Counter}
    (h : levelGet? lvl k = some c) : totalAtKey lvl k = c.total := by
  unfold totalAtKey
  rw [h]

/-- The get-or-create counter's total is the key's current total. -/
theorem getD_levelGet?_total (lvl : Level) (k : String) :
    ((levelGet? lvl k).getD Counter.empty).total = totalAtKey lvl k := by
  cases hg : levelGet? lvl k with
  | none => simp [totalAtKey, hg, Counter.total, Counter.empty]
  | some c0 => simp [totalAtKey, hg]

/-- One `updateModel` step adds 1 to the total stored at its own joined
key and leaves every other key's total unchanged. -/
theorem totalAtKey_updateLevelStep (tokens : List String) (n : ℕ) (lvl : Level) (i : ℕ)
    (k : String) :
    totalAtKey (updateLevelStep tokens n lvl i) k =
      totalAtKey lvl k + (if joinSpace (sliceTk tokens i n) = k then 1 else 0) := by
  simp only [updateLevelStep]
  by_cases hk : joinSpace (sliceTk tokens i n) = k
  · rw [hk, if_pos rfl]
    rw [totalAtKey_eq_of_some (levelGet?_levelSet_self _ _ _), Counter.total_incrementU,
      getD_levelGet?_total]
  · rw [if_neg hk]
    unfold totalAtKey
    rw [levelGet?_levelSet_ne _ _ _ _ hk]
    exact (add_zero _).symm

/-- Folding the update steps over any index list adds one to the key's
total per index whose joined slice equals the key. -/
theorem totalAtKey_foldl_steps (tokens : List String) (n : ℕ) (k : String) :
    ∀ (is : List ℕ) (lvl : Level),
      totalAtKey (is.foldl (updateLevelStep tokens n) lvl) k =
        totalAtKey lvl k +
          ((is.countP (fun i => joinSpace (sliceTk tokens i n) == k) : ℕ) : ℚ) := by
  intro is
  induction is with
  | nil => intro lvl; simp
  | cons i is ih =>
    intro lvl
    rw [List.foldl_cons, ih, totalAtKey_updateLevelStep, List.countP_cons]
    by_cases h : joinSpace (sliceTk tokens i n) = k
    · simp [h]
      ring
    · simp [h]

/-- Indices below the processed range are untouched by the per-level
fold of `updateModel`. -/
theorem foldl_set_untouched {α : Type} (f : ℕ → α → α) (d : α) :
    ∀ (m s : ℕ) (ls : List α) (j : ℕ), j + 1 < s →
      ((List.range' s m).foldl (fun ls n => ls.set (n - 1) (f n (ls.getD (n - 1) d))) ls).getD j d
        = ls.getD j d := by
  intro m
  induction m with
  | zero => intro s ls j _; rfl
  | succ m ih =>
    intro s ls j h
    rw [List.range'_succ, List.foldl_cons, ih (s + 1) _ j (by omega)]
    exact listGetD_set_ne _ _ _ _ _ (by omega)

/-- The per-level fold of `updateModel` rewrites each level index `j`
with `1 ≤ j + 1 < s + m` in the processed range from its own previous
contents only. -/
theorem foldl_set_levels {α : Type} (f : ℕ → α → α) (d : α) :
    ∀ (m s : ℕ) (ls : List α) (j : ℕ), 1 ≤ s → s ≤ j + 1 → j + 1 < s + m → j < ls.length →
      ((List.range' s m).foldl (fun ls n => ls.set (n - 1) (f n (ls.getD (n - 1) d))) ls).getD j d
        = f (j + 1) (ls.getD j d) := by
  intro m
  induction m with
  | zero => intro s ls j _ _ _ _; omega
  | succ m ih =>
    intro s ls j hs h1 h2 h3
    rw [List.range'_succ, List.foldl_cons]
    by_cases hj : j + 1 = s
    · subst hj
      simp only [Nat.add_sub_cancel]
      rw [foldl_set_untouched f d m (j + 1 + 1) _ j (by omega)]
      rw [listGetD_set_self _ _ _ _ (by omega)]
    · rw [ih (s + 1) _ j (by omega) (by omega) (by omega) (by simpa using h3)]
      rw [listGetD_set_ne _ _ _ _ _ (by omega)]

/-- After `updateModel`, level `n - 1` (for `1 ≤ n ≤ maxN`, on a
well-formed table) is exactly the inner loop applied to the level's
previous contents. -/
theorem updateModel_level (g : Ngram) (T : List String) (n : ℕ)
    (h1 : 1 ≤ n) (h2 : n ≤ g.maxN) (hw : g.ngrams.length = g.maxN) :
    (g.updateModel T).ngrams.getD (n - 1) [] = updateLevel T n (g.ngrams.getD (n - 1) []) := by
  have h := foldl_set_levels (fun n lvl => updateLevel T n lvl) ([] : Level) g.maxN 1
    g.ngrams (n - 1) (le_refl 1) (by omega) (by omega) (by omega)
  have hn : n - 1 + 1 = n := by omega
  rw [hn] at h
  exact h

/-- Every level of a freshly constructed table is empty. -/
theorem getD_replicate_level (k j : ℕ) :
    (List.replicate k ([] : Level)).getD j [] = [] := by
  rcases lt_or_le j k with h | h
  · rw [List.getD_eq_getElem?_getD, List.getElem?_replicate]
    simp [h]
  · rw [List.getD_eq_getElem?_getD,
      List.getElem?_eq_none (by simpa using h)]
    rfl

/-- Splitting a character list at a single separator space is unique
when neither prefix contains a space. -/
theorem append_space_inj : ∀ (u v x y : List Char), ' ' ∉ u → ' ' ∉ v →
    u ++ ' ' :: x = v ++ ' ' :: y → u = v ∧ x = y
  | [], [], _, _, _, _, h => by simpa using h
  | [], c :: v', _x, _y, hu, hv, h => by
      simp only [List.nil_append, List.cons_append, List.cons.injEq] at h
      exact absurd (List.mem_cons_self _ _) (h.1.symm ▸ hv)
  | a :: u', [], _x, _y, hu, hv, h => by
      simp only [List.nil_append, List.cons_append, List.cons.injEq] at h
      exact absurd (List.mem_cons_self _ _) (h.1 ▸ hu)
  | a :: u', b :: v', x, y, hu, hv, h => by
      simp only [List.cons_append, List.cons.injEq] at h
      obtain ⟨h1, h2⟩ := h
      obtain ⟨he, hx⟩ := append_space_inj u' v' x y
        (fun hm => hu (List.mem_cons_of_mem _ hm))
        (fun hm => hv (List.mem_cons_of_mem _ hm)) h2
      exact ⟨by rw [h1, he], hx⟩

/-- The character data of a joined list with at least two components. -/
theorem joinSpace_data_cons (s r : String) (rest : List String) :
    (joinSpace (s :: r :: rest)).data = s.data ++ ' ' :: (joinSpace (r :: rest)).data := by
  show (s ++ " " ++ joinSpace (r :: rest)).data = _
  rw [String.data_append, String.data_append, List.append_assoc]
  rfl

/-- `join(' ')` is injective on equal-length lists of space-free tokens. -/
theorem joinSpace_inj : ∀ (a b : List String), a.length = b.length →
    (∀ s ∈ a, spaceFree s) → (∀ s ∈ b, spaceFree s) →
    joinSpace a = joinSpace b → a = b
  | [], [], _, _, _, _ => rfl
  | [s], [t], _, _, _, h => by
      have : s = t := h
      rw [this]
  | [], _ :: _, hlen, _, _, _ => by simp at hlen
  | _ :: _, [], hlen, _, _, _ => by simp at hlen
  | _ :: _ :: _, [_], hlen, _, _, _ => by simp at hlen
  | [_], _ :: _ :: _, hlen, _, _, _ => by simp at hlen
  | s :: s2 :: a', t :: t2 :: b', hlen, ha, hb, h => by
      have hd : (joinSpace (s :: s2 :: a')).data = (joinSpace (t :: t2 :: b')).data := by
        rw [h]
      rw [joinSpace_data_cons, joinSpace_data_cons] at hd
      obtain ⟨h1, h2⟩ := append_space_inj _ _ _ _
        (ha s (List.mem_cons_self _ _)) (hb t (List.mem_cons_self _ _)) hd
      have hs : s = t := String.ext h1
      have hrest : joinSpace (s2 :: a') = joinSpace (t2 :: b') := String.ext h2
      have htail := joinSpace_inj (s2 :: a') (t2 :: b') (by simpa using hlen)
        (fun x hx => ha x (List.mem_cons_of_mem _ hx))
        (fun x hx => hb x (List.mem_cons_of_mem _ hx)) hrest
      rw [hs, htail]

/-- A slice at a valid position has length exactly `n`. -/
theorem sliceTk_length {T : List String} {j n : ℕ} (h : j + n ≤ T.length) :
    (sliceTk T j n).length = n := by
  simp [sliceTk]
  omega

/-- Slices draw their tokens from the sequence. -/
theorem sliceTk_subset (T : List String) (j n : ℕ) : sliceTk T j n ⊆ T :=
  fun _x hx => List.drop_subset _ _ (List.take_subset _ _ hx)

/-- C3, counterexample: with tokens containing inner spaces the joined
context key "a b c" is shared by two different length-2 slices, so the
counter's total (2) differs from the number of occurrences of the exact
context subsequence `["a", "b c"]` (1). -/
theorem updateModel_collision_counterexample :
    totalAtKey (((Ngram.new 2).updateModel collideTokens).ngrams.getD 1 [])
        (joinSpace (sliceTk collideTokens 0 2)) = 2 ∧
    occurrencesOf collideTokens 2 (sliceTk collideTokens 0 2) = 1 ∧
    ¬ ((2 : ℚ) = ((1 : ℕ) : ℚ)) := by
  refine ⟨?_, by decide, by norm_num⟩
  have hkey : joinSpace (sliceTk collideTokens 0 2) = "a b c" := by decide
  rw [collideNgram_eval, hkey]
  norm_num [totalAtKey, levelGet?, Counter.total, List.find?]

/-- C3 (amended): for every fresh table (any constructor argument `k`),
token sequence `T` whose tokens are space-free (as all tokenizer output
is), gram length `1 ≤ n ≤ maxN` and valid position `i + n ≤ |T|`, after
`updateModel T` the sum over all next-tokens of the counter stored at
the space-joined context key of `T[i..i+n)` equals the number of
occurrences of that exact context subsequence in `T` (tail occurrences
having contributed the end-of-sequence sentinel as next token); without
the space-free proviso the total counts every position whose joined
slice collides with the key. -/
theorem updateModel_context_total (k : ℕ) (T : List String) (n i : ℕ)
    (h1 : 1 ≤ n) (h2 : n ≤ (Ngram.new k).maxN) (hi : i + n ≤ T.length)
    (hsp : ∀ t ∈ T, spaceFree t) :
    totalAtKey (((Ngram.new k).updateModel T).ngrams.getD (n - 1) [])
        (joinSpace (sliceTk T i n)) = (occurrencesOf T n (sliceTk T i n) : ℚ) := by
  rw [updateModel_level _ _ _ h1 h2 (by simp [Ngram.new])]
  rw [show (Ngram.new k).ngrams.getD (n - 1) [] = ([] : Level) from getD_replicate_level _ _]
  rw [updateLevel, totalAtKey_foldl_steps]
  rw [show totalAtKey [] (joinSpace (sliceTk T i n)) = 0 from rfl, zero_add]
  rw [occurrencesOf]
  norm_cast
  apply List.countP_congr
  intro j hj
  have hjn : j + n ≤ T.length := by
    have := List.mem_range.mp hj
    omega
  simp only [beq_iff_eq, decide_eq_true_eq]
  constructor
  · intro hjoin
    exact joinSpace_inj _ _ (by rw [sliceTk_length hjn, sliceTk_length hi])
      (fun x hx => hsp x (sliceTk_subset T j n hx))
      (fun x hx => hsp x (sliceTk_subset T i n hx)) hjoin
  · intro hs
    rw [hs]

/-- C3, witness: on the spec scenario (maxN 3, the eight training
tokens), the bigram context "hello world" occurs twice and its counter's
total is exactly that occurrence count. -/
theorem updateModel_context_total_witness :
    totalAtKey (((Ngram.new 3).updateModel helloTokens).ngrams.getD 1 [])
        (joinSpace (sliceTk helloTokens 0 2))
      = (occurrencesOf helloTokens 2 (sliceTk helloTokens 0 2) : ℚ) ∧
    occurrencesOf helloTokens 2 (sliceTk helloTokens 0 2) = 2 := by
  refine ⟨?_, by decide⟩
  exact updateModel_context_total 3 helloTokens 2 0 (by omega) (by decide) (by decide)
    (by decide)

/-! ### C1 — save/load round trip -/

/-- C1 (documenting the code bug): on the spec's trained model the
round trip `loadModel(saveModel())` preserves the vocabulary size (6)
but NOT the prediction behavior: `JSON.stringify` renders each level
`Map` as `{}`, so the reloaded model's levels are empty and the trained
prefix "hello world" predicts `[]` instead of the original `["how"]`. -/
theorem saveModel_loadModel_drops_counts :
    trainedLM.getVocabularySize = 6 ∧
    trainedLM.predict "hello world" 1 = ["how"] ∧
    (trainedLM.loadModel trainedLM.saveModel).map
        (fun m2 => (m2.getVocabularySize, m2.predict "hello world" 1)) =
      .ok (6, []) := by
  refine ⟨by decide, ?_, ?_⟩
  · rw [trainedLM_eval]
    decide
  · rw [trainedLM_eval]
    decide
